import Mathlib

/-
Verification of the lock-free MPMC FIFO queue repository.

The development shallowly embeds the C++ sources:
  - `include/queue/lockfree_queue.hpp`: the Michael-Scott queue
    (`LockFreeQueue::enqueue` lines 603-668, `LockFreeQueue::try_dequeue`
    lines 670-752, `close` lines 754-757), the `SimpleBackoff` utility
    (lines 417-440), the `NodePool` allocator (lines 487-554), and the
    earlier unprotected revision of `enqueue` (lines 970-1014);
  - `include/reclaimer/epoch_based_reclamation.hpp`:
    `EpochBasedReclaimationManager::scan_and_retire` (lines 141-174);
  - `include/reclaimer/hazard_pointers.hpp`:
    `HazardPointerManager::scan_and_retire` (lines 390-445).

Heap cells are addressed by natural numbers.  Queue operations are given
interference-free (sequential) semantics: atomic loads return the current
field value, revalidation loads observe the unchanged value and therefore
pass, and compare-and-swap succeeds whenever its expected value matches,
which in the absence of interference it always does.  The one concurrent
input that the enqueue contract itself mentions, the `closed_` flag that
another thread may set at any moment via `close()`, is modelled by an
observation oracle `oc : Nat -> Bool` giving the value returned by the
k-th `is_closed()` load inside the call.  Loops carry explicit fuel; a
result of `none` means the modelled run was cut off (fuel exhausted) or
dereferenced an unallocated node, which in the C++ would be undefined
behaviour.
-/

set_option autoImplicit false

namespace LFQ

/-- One queue node: the `next` link (an optional address, `none` being the
null pointer) and the payload, mirroring `LockFreeQueue::Node`. -/
structure NodeData (α : Type) where
  next : Option Nat
  value : α

/-- The heap of nodes: partial map from addresses to node contents. -/
def Mem (α : Type) : Type := Nat → Option (NodeData α)

/-- Allocation of a node at address `i` (constructor `Node(v)`). -/
def memInsert {α : Type} (m : Mem α) (i : Nat) (nd : NodeData α) : Mem α :=
  fun j => if j = i then some nd else m j

/-- Freeing of the node at address `i` (via `delete` / `Reclaimer::retire`,
which hands the cell back to the allocator). -/
def memErase {α : Type} (m : Mem α) (i : Nat) : Mem α :=
  fun j => if j = i then none else m j

/-- The store `t->next = nx` performed by the successful CAS on `next`. -/
def memSetNext {α : Type} (m : Mem α) (i : Nat) (nx : Option Nat) : Mem α :=
  fun j => if j = i then (m j).map (fun nd => { nd with next := nx }) else m j

/-- The `next` field of the node at address `i`; `none` when `i` is not
allocated (a dereference of a dangling pointer). -/
def nextOf {α : Type} (m : Mem α) (i : Nat) : Option (Option Nat) :=
  (m i).map (fun nd => nd.next)

/-- The payload of the node at address `i`. -/
def valOf {α : Type} (m : Mem α) (i : Nat) : Option α :=
  (m i).map (fun nd => nd.value)

/-- The whole queue object: the heap, the `head_`, `tail_` and `closed_`
fields, and the next fresh address the allocator will hand out. -/
structure QState (α : Type) where
  mem : Mem α
  head : Nat
  tail : Nat
  closed : Bool
  nextId : Nat

/-- `LockFreeQueue::close` (lines 754-757): store `closed_ = true`. -/
def close {α : Type} (q : QState α) : QState α :=
  { q with closed := true }

/-- `LockFreeQueue::is_closed` (lines 759-762). -/
def is_closed {α : Type} (q : QState α) : Bool :=
  q.closed

/-- The retry loop of `LockFreeQueue::enqueue` (lines 610-667) under
interference-free semantics.  `nid` is the address of the freshly
allocated node holding `v`; `k` numbers the `is_closed()` observations so
that `oc k` is the value the k-th load of `closed_` returns; `fuel`
bounds the number of iterations.  Per iteration, in source order:
load `curr_tail`; `protect_at(0, curr_tail)` (a store into the reclaimer,
no effect on the queue state); revalidate `tail_ == curr_tail` (passes,
no interference); load `curr_tail->next`; check `is_closed()` and on true
clear the protection, `delete new_node` and return false; recheck
`tail_ == curr_tail` (passes); if `next` was null, CAS it to `nid`
(succeeds), best-effort-CAS `tail_` to `nid` (succeeds), return true;
otherwise help-advance `tail_` and retry. -/
def enqueueLoop {α : Type} (oc : Nat → Bool) (nid : Nat) :
    Nat → Nat → QState α → Option (Bool × QState α)
  | 0, _, _ => none
  | fuel + 1, k, q =>
    let t := q.tail
    match q.mem t with
    | none => none
    | some nd =>
      if oc k then
        some (false, { q with mem := memErase q.mem nid })
      else
        match nd.next with
        | none =>
          some (true, { q with mem := memSetNext q.mem t (some nid), tail := nid })
        | some nx =>
          enqueueLoop oc nid fuel (k + 1) { q with tail := nx }

/-- `LockFreeQueue::enqueue` (lines 603-668) with the `closed_` loads fed
by the oracle `oc`: observation 0 is the entry `is_closed()` check made
before the node is allocated, observation `k ≥ 1` is the check made in
the k-th loop iteration. -/
def enqueueObs {α : Type} (oc : Nat → Bool) (fuel : Nat) (q : QState α) (v : α) :
    Option (Bool × QState α) :=
  if oc 0 then
    some (false, q)
  else
    let nid := q.nextId
    enqueueLoop oc nid fuel 1
      { q with mem := memInsert q.mem nid ⟨none, v⟩, nextId := nid + 1 }

/-- `LockFreeQueue::enqueue` when no other thread races on `closed_`:
every `is_closed()` load returns the queue's own flag. -/
def enqueue {α : Type} (fuel : Nat) (q : QState α) (v : α) : Option (Bool × QState α) :=
  enqueueObs (fun _ => q.closed) fuel q v

/-- The retry loop of `LockFreeQueue::try_dequeue` (lines 674-751) under
interference-free semantics.  `out` is the current value of the caller's
`out` argument.  Per iteration, in source order: load `curr_head`;
`protect_at(0, curr_head)`; revalidate `head_ == curr_head` (passes);
load `curr_tail` and `curr_head->next`; if `next` is null clear both
protections and return false with `out` untouched; `protect_at(1, next)`
and revalidate `head_` (passes); if `curr_head == curr_tail`
help-advance `tail_` and retry; otherwise read `out = next->value`,
CAS `head_` to `next` (succeeds), clear the protections, retire the old
head (the reclaimer later frees it, removing it from the live heap) and
return true. -/
def tryDequeueLoop {α : Type} (out : α) :
    Nat → QState α → Option (Bool × α × QState α)
  | 0, _ => none
  | fuel + 1, q =>
    let h := q.head
    let t := q.tail
    match q.mem h with
    | none => none
    | some nd =>
      match nd.next with
      | none => some (false, out, q)
      | some nx =>
        if h = t then
          tryDequeueLoop out fuel { q with tail := nx }
        else
          match q.mem nx with
          | none => none
          | some nxd =>
            some (true, nxd.value, { q with mem := memErase q.mem h, head := nx })

/-- `LockFreeQueue::try_dequeue` (lines 670-752). -/
def try_dequeue {α : Type} (fuel : Nat) (q : QState α) (out : α) :
    Option (Bool × α × QState α) :=
  tryDequeueLoop out fuel q

/-- Run `count` successive `try_dequeue` calls (each with loop fuel
`fuel` and a fresh `out` initialised to `d`), recording `some v` for a
call that returns true with value `v` and `none` for a call that returns
false.  Stops early only if a call gets stuck. -/
def runDequeues {α : Type} (d : α) (fuel : Nat) :
    Nat → QState α → List (Option α) × QState α
  | 0, q => ([], q)
  | count + 1, q =>
    match try_dequeue fuel q d with
    | some (true, v, q1) =>
      let r := runDequeues d fuel count q1
      (some v :: r.1, r.2)
    | some (false, _, q1) =>
      let r := runDequeues d fuel count q1
      (none :: r.1, r.2)
    | none => ([], q)

/-- The address of the last node of a queue whose dummy sits at `h` and
whose items (address-value pairs, oldest first) are `items`: the dummy
itself when the queue is empty, the last item's node otherwise. -/
def lastId {α : Type} (h : Nat) : List (Nat × α) → Nat
  | [] => h
  | it :: rest => lastId it.1 rest

/-- The heap `m` spells out, starting at the node at address `i`, exactly
the chain of item nodes `items` (address-value pairs in link order), the
final node's `next` being null.  This is invariant I2/I3 of the spec
instantiated to a quiescent state. -/
def chainIs {α : Type} (m : Mem α) : Nat → List (Nat × α) → Prop
  | i, [] => nextOf m i = some none
  | i, it :: rest => nextOf m i = some (some it.1) ∧ valOf m it.1 = some it.2 ∧ chainIs m it.1 rest

/-- Well-formedness of a quiescent queue state holding `items` (oldest
first): the dummy at `head_` links through exactly the item nodes,
`tail_` points at the last node (no lag in a quiescent state), all chain
addresses are distinct and below the allocation watermark, and nothing
is allocated at or above the watermark. -/
structure WF {α : Type} (q : QState α) (items : List (Nat × α)) : Prop where
  chain : chainIs q.mem q.head items
  tailOk : q.tail = lastId q.head items
  nodup : (q.head :: items.map Prod.fst).Nodup
  fresh : ∀ i ∈ q.head :: items.map Prod.fst, i < q.nextId
  bound : ∀ i, q.nextId ≤ i → q.mem i = none

theorem lastId_mem {α : Type} :
    ∀ (items : List (Nat × α)) (h : Nat), lastId h items ∈ h :: items.map Prod.fst := by
  intro items
  induction items with
  | nil => intro h; simp [lastId]
  | cons it rest ih =>
    intro h
    have := ih it.1
    simp only [lastId, List.map_cons, List.mem_cons] at this ⊢
    tauto

theorem chainIs_congr {α : Type} {m m' : Mem α} :
    ∀ (items : List (Nat × α)) (i : Nat),
      (∀ j ∈ i :: items.map Prod.fst, m' j = m j) →
      chainIs m i items → chainIs m' i items := by
  intro items
  induction items with
  | nil =>
    intro i hag hc
    simp only [chainIs, nextOf] at hc ⊢
    rw [hag i (by simp)]; exact hc
  | cons it rest ih =>
    intro i hag hc
    obtain ⟨h1, h2, h3⟩ := hc
    refine ⟨?_, ?_, ?_⟩
    · simpa only [nextOf, hag i (by simp)] using h1
    · simpa only [valOf, hag it.1 (by simp)] using h2
    · exact ih it.1 (fun j hj => hag j (by simp only [List.map_cons, List.mem_cons] at hj ⊢; tauto)) h3

theorem chainIs_last {α : Type} {m : Mem α} :
    ∀ (items : List (Nat × α)) (i : Nat),
      chainIs m i items → nextOf m (lastId i items) = some none := by
  intro items
  induction items with
  | nil => intro i hc; exact hc
  | cons it rest ih => intro i hc; exact ih it.1 hc.2.2

theorem lastId_append {α : Type} :
    ∀ (items : List (Nat × α)) (h n : Nat) (v : α),
      lastId h (items ++ [(n, v)]) = n := by
  intro items
  induction items with
  | nil => intro h n v; rfl
  | cons it rest ih => intro h n v; exact ih it.1 n v

/-- Linking a fresh node `nid` holding `v` behind the last chain node
extends the spelled-out chain by one item. -/
theorem chainIs_extend {α : Type} {m : Mem α} {nid : Nat} {v : α} :
    ∀ (items : List (Nat × α)) (h : Nat),
      chainIs m h items →
      (h :: items.map Prod.fst).Nodup →
      nid ∉ h :: items.map Prod.fst →
      m nid = some ⟨none, v⟩ →
      chainIs (memSetNext m (lastId h items) (some nid)) h (items ++ [(nid, v)]) := by
  intro items
  induction items with
  | nil =>
    intro h hc hnd hnid hv
    have hne : ¬ (nid = h) := by simp at hnid; exact hnid
    obtain ⟨nd, hm, hx⟩ := Option.map_eq_some'.mp hc
    refine ⟨?_, ?_, ?_⟩
    · simp [nextOf, memSetNext, lastId, hm]
    · simp [valOf, memSetNext, lastId, if_neg hne, hv]
    · simp [chainIs, nextOf, memSetNext, lastId, if_neg hne, hv]
  | cons it rest ih =>
    intro h hc hnd hnid hv
    obtain ⟨h1, h2, h3⟩ := hc
    have htmem : lastId it.1 rest ∈ it.1 :: rest.map Prod.fst := lastId_mem rest it.1
    have hhne : ¬ (h = lastId it.1 rest) := by
      intro he
      have : h ∉ it.1 :: rest.map Prod.fst := by
        have := hnd
        simp only [List.map_cons, List.nodup_cons] at this
        simpa using this.1
      rw [he] at this; exact this htmem
    refine ⟨?_, ?_, ?_⟩
    · simpa only [nextOf, lastId, memSetNext, if_neg hhne] using h1
    · obtain ⟨ndj, hmj, hvj⟩ := Option.map_eq_some'.mp h2
      by_cases hcase : it.1 = lastId it.1 rest
      · simp [valOf, memSetNext, lastId, if_pos hcase, hmj, hvj]
      · simp [valOf, memSetNext, lastId, if_neg hcase, hmj, hvj]
    · have hnd' : (it.1 :: rest.map Prod.fst).Nodup := by
        have := List.Nodup.of_cons hnd
        simpa using this
      have hnid' : nid ∉ it.1 :: rest.map Prod.fst := by
        simp only [List.map_cons, List.mem_cons] at hnid
        simp only [List.mem_cons]
        tauto
      exact ih it.1 h3 hnd' hnid' hv

theorem nodup_snoc {l : List Nat} {a : Nat} (h : l.Nodup) (ha : a ∉ l) :
    (l ++ [a]).Nodup := by
  simp [List.nodup_append, h, ha]

/-- On an observed-empty well-formed queue, one `try_dequeue` loop
iteration returns false and leaves the whole state (and `out`) untouched. -/
theorem dequeue_empty {α : Type} {q : QState α} (out : α) (f : Nat)
    (hwf : WF q []) :
    tryDequeueLoop out (f + 1) q = some (false, out, q) := by
  obtain ⟨nd, hm, hx⟩ := Option.map_eq_some'.mp hwf.chain
  simp [tryDequeueLoop, hm, hx]

/-- The state after a successful dequeue: the old dummy is retired (and
eventually freed), `head_` moves to the first item node. -/
def afterDeq {α : Type} (q : QState α) (j : Nat) : QState α :=
  { q with mem := memErase q.mem q.head, head := j }

/-- On a well-formed queue holding at least one item, one `try_dequeue`
loop iteration succeeds, returns the oldest value, and re-establishes
well-formedness on the remaining items. -/
theorem dequeue_step {α : Type} {q : QState α} {it : Nat × α} {items : List (Nat × α)}
    (out : α) (f : Nat) (hwf : WF q (it :: items)) :
    tryDequeueLoop out (f + 1) q = some (true, it.2, afterDeq q it.1) ∧
      WF (afterDeq q it.1) items := by
  obtain ⟨h1, h2, h3⟩ := hwf.chain
  obtain ⟨nd, hm, hx⟩ := Option.map_eq_some'.mp h1
  obtain ⟨nxd, hmx, hvx⟩ := Option.map_eq_some'.mp h2
  have hhead_notin : q.head ∉ it.1 :: items.map Prod.fst := by
    have := hwf.nodup
    simp only [List.map_cons, List.nodup_cons] at this
    simpa using this.1
  have hne : ¬ (q.head = q.tail) := by
    intro he
    have : q.tail ∈ it.1 :: items.map Prod.fst := by
      have := lastId_mem items it.1
      simpa [hwf.tailOk, lastId] using this
    rw [← he] at this; exact hhead_notin this
  constructor
  · simp [tryDequeueLoop, hm, hx, hmx, if_neg hne, afterDeq, hvx]
  · refine ⟨?_, ?_, ?_, ?_, ?_⟩
    · refine chainIs_congr items it.1 ?_ h3
      intro j hj
      have : ¬ (j = q.head) := by
        intro he; rw [he] at hj; exact hhead_notin hj
      simp [afterDeq, memErase, this]
    · simpa [afterDeq, lastId] using hwf.tailOk
    · exact (by simpa using hwf.nodup : (q.head :: it.1 :: items.map Prod.fst).Nodup).of_cons
    · intro i hi
      exact hwf.fresh i (by simp only [List.map_cons, List.mem_cons] at hi ⊢; tauto)
    · intro i hi
      have := hwf.bound i hi
      simp [afterDeq, memErase, this]

/-- Entry path of `enqueue`: the first `is_closed()` check observes true,
no node is allocated, the call returns false with the state untouched. -/
theorem enqueue_closed_entry {α : Type} {oc : Nat → Bool} (fuel : Nat) (q : QState α)
    (v : α) (h0 : oc 0 = true) :
    enqueueObs oc fuel q v = some (false, q) := by
  simp [enqueueObs, h0]

theorem tail_lt_nextId {α : Type} {q : QState α} {items : List (Nat × α)}
    (hwf : WF q items) : q.tail < q.nextId := by
  have := hwf.fresh (lastId q.head items) (lastId_mem items q.head)
  simpa [hwf.tailOk] using this

theorem tail_deref {α : Type} {q : QState α} {items : List (Nat × α)}
    (hwf : WF q items) : ∃ nd : NodeData α, q.mem q.tail = some nd ∧ nd.next = none := by
  have := chainIs_last items q.head hwf.chain
  rw [← hwf.tailOk] at this
  exact Option.map_eq_some'.mp this

/-- In-loop abort path of `enqueue`: the entry check observed false, the
node was allocated, the check in the first loop iteration observes true;
the node is deleted and the call returns false.  The resulting heap is
pointwise the original one. -/
theorem enqueue_closed_loop {α : Type} {oc : Nat → Bool} {q : QState α}
    {items : List (Nat × α)} (f : Nat) (v : α) (hwf : WF q items)
    (h0 : oc 0 = false) (h1 : oc 1 = true) :
    ∃ q1 : QState α,
      enqueueObs oc (f + 1) q v = some (false, q1) ∧
      (∀ i, q1.mem i = q.mem i) ∧
      q1.head = q.head ∧ q1.tail = q.tail ∧ q1.closed = q.closed := by
  obtain ⟨nd, hm, hx⟩ := tail_deref hwf
  have htne : ¬ (q.tail = q.nextId) := by have := tail_lt_nextId hwf; omega
  refine ⟨{ q with mem := memErase (memInsert q.mem q.nextId ⟨none, v⟩) q.nextId, nextId := q.nextId + 1 }, ?_, ?_, rfl, rfl, rfl⟩
  · simp only [enqueueObs, h0, Bool.false_eq_true, if_false, enqueueLoop]
    have hm1 : memInsert q.mem q.nextId ⟨none, v⟩ q.tail = some nd := by
      simp [memInsert, htne, hm]
    rw [hm1]
    simp [h1]
  · intro i
    by_cases hi : i = q.nextId
    · subst hi
      simp [memErase, memInsert, hwf.bound _ (le_refl q.nextId)]
    · simp [memErase, memInsert, hi]

/-- The state after a successful enqueue of value `v` into node `nid`:
the old last node's `next` is CASed to `nid` and `tail_` is swung. -/
def afterEnq {α : Type} (q : QState α) (v : α) : QState α :=
  { q with
    mem := memSetNext (memInsert q.mem q.nextId ⟨none, v⟩) q.tail (some q.nextId),
    tail := q.nextId,
    nextId := q.nextId + 1 }

/-- Success path of `enqueue` on a well-formed queue: both `is_closed()`
observations are false, the first loop iteration links the fresh node and
swings `tail_`; well-formedness holds with the new item appended. -/
theorem enqueue_success {α : Type} {oc : Nat → Bool} {q : QState α}
    {items : List (Nat × α)} (f : Nat) (v : α) (hwf : WF q items)
    (h0 : oc 0 = false) (h1 : oc 1 = false) :
    enqueueObs oc (f + 1) q v = some (true, afterEnq q v) ∧
      WF (afterEnq q v) (items ++ [(q.nextId, v)]) := by
  obtain ⟨nd, hm, hx⟩ := tail_deref hwf
  have htne : ¬ (q.tail = q.nextId) := by have := tail_lt_nextId hwf; omega
  have hfresh_notin : q.nextId ∉ q.head :: items.map Prod.fst := by
    intro hmem
    have := hwf.fresh _ hmem
    omega
  have hchain1 : chainIs (memInsert q.mem q.nextId ⟨none, v⟩) q.head items := by
    refine chainIs_congr items q.head ?_ hwf.chain
    intro j hj
    have : ¬ (j = q.nextId) := by
      intro he; rw [he] at hj; exact hfresh_notin hj
    simp [memInsert, this]
  constructor
  · simp only [enqueueObs, h0, Bool.false_eq_true, if_false, enqueueLoop]
    have hm1 : memInsert q.mem q.nextId ⟨none, v⟩ q.tail = some nd := by
      simp [memInsert, htne, hm]
    rw [hm1]
    simp only [h1, Bool.false_eq_true, if_false]
    rw [hx]
    rfl
  · have hv1 : memInsert q.mem q.nextId ⟨none, v⟩ q.nextId = some ⟨none, v⟩ := by
      simp [memInsert]
    refine ⟨?_, ?_, ?_, ?_, ?_⟩
    · have := chainIs_extend items q.head hchain1 hwf.nodup hfresh_notin hv1
      simpa [afterEnq, hwf.tailOk] using this
    · simp [afterEnq, lastId_append]
    · have : ((q.head :: items.map Prod.fst) ++ [q.nextId]).Nodup :=
        nodup_snoc hwf.nodup hfresh_notin
      simpa using this
    · intro i hi
      simp only [afterEnq, List.map_append, List.map_cons, List.mem_cons,
        List.mem_append] at hi ⊢
      rcases hi with h | h | h
      · have := hwf.fresh i (by simp [h]); omega
      · have := hwf.fresh i (by simp [h]); omega
      · simp at h; omega
    · intro i hi
      simp only [afterEnq] at hi ⊢
      have hi1 : ¬ (i = q.tail) := by have := tail_lt_nextId hwf; omega
      have hi2 : ¬ (i = q.nextId) := by omega
      simp [memSetNext, memInsert, hi1, hi2, hwf.bound i (by omega)]

/-- A freshly constructed queue: one dummy node at address 0. -/
def memEx : Mem Nat := fun j => if j = 0 then some ⟨none, 0⟩ else none

/-- A fresh, open queue (used to instantiate hypotheses concretely). -/
def qEx : QState Nat := ⟨memEx, 0, 0, false, 1⟩

/-- The same fresh queue after `close()`. -/
def qExC : QState Nat := ⟨memEx, 0, 0, true, 1⟩

theorem qEx_wf : WF qEx [] := by
  refine ⟨rfl, rfl, by simp, by simp [qEx], ?_⟩
  intro i hi
  simp only [qEx] at hi
  have : ¬ (i = 0) := by omega
  simp [qEx, memEx, this]

theorem qExC_wf : WF qExC [] := by
  refine ⟨rfl, rfl, by simp, by simp [qExC], ?_⟩
  intro i hi
  simp only [qExC] at hi
  have : ¬ (i = 0) := by omega
  simp [qExC, memEx, this]

/-- A heap holding the dummy at 0 and two items at 1 and 2. -/
def memEx2 : Mem Nat := fun j =>
  if j = 0 then some ⟨some 1, 0⟩
  else if j = 1 then some ⟨some 2, 10⟩
  else if j = 2 then some ⟨none, 20⟩
  else none

/-- An open queue holding the two items 10 and 20 (in enqueue order). -/
def qEx2 : QState Nat := ⟨memEx2, 0, 2, false, 3⟩

theorem qEx2_wf : WF qEx2 [(1, 10), (2, 20)] := by
  refine ⟨⟨rfl, rfl, rfl, rfl, rfl⟩, rfl, by simp [qEx2], by simp [qEx2], ?_⟩
  intro i hi
  simp only [qEx2] at hi
  have h0 : ¬ (i = 0) := by omega
  have h1 : ¬ (i = 1) := by omega
  have h2 : ¬ (i = 2) := by omega
  simp [qEx2, memEx2, h0, h1, h2]

/-- C1: on any well-formed empty queue that is not closed, `enqueue(v)`
followed by `try_dequeue(&w)` returns true from both calls and the
dequeued value is `v`. -/
theorem c1_enqueue_dequeue_roundtrip {α : Type} (f g : Nat) (q : QState α)
    (v d : α) (hwf : WF q []) (hcl : q.closed = false) :
    ∃ q1 q2 : QState α,
      enqueue (f + 1) q v = some (true, q1) ∧
      try_dequeue (g + 1) q1 d = some (true, v, q2) := by
  obtain ⟨henq, hwf1⟩ := @enqueue_success α (fun _ => q.closed) q [] f v hwf hcl hcl
  refine ⟨afterEnq q v, afterDeq (afterEnq q v) q.nextId, henq, ?_⟩
  exact (dequeue_step d g hwf1).1

theorem c1_witness :
    ∃ q1 q2 : QState Nat,
      enqueue 1 qEx 5 = some (true, q1) ∧
      try_dequeue 1 q1 0 = some (true, 5, q2) :=
  c1_enqueue_dequeue_roundtrip 0 0 qEx 5 0 qEx_wf rfl

/-- C2: an `enqueue(v)` call on a well-formed queue returns false exactly
when one of its `is_closed()` loads (observation 0 at entry, observation
1 inside the loop) observes the closed flag true; whenever it returns
false the value is dropped: the heap is pointwise unchanged (so `v` was
never linked and the freshly allocated node, if any, went back to the
allocator) and `head_`, `tail_`, `closed_` are untouched. -/
theorem c2_enqueue_false_iff_closed {α : Type} (oc : Nat → Bool) (f : Nat)
    (q : QState α) (v : α) (items : List (Nat × α)) (hwf : WF q items) :
    ∃ (b : Bool) (q1 : QState α),
      enqueueObs oc (f + 1) q v = some (b, q1) ∧
      (b = false ↔ (oc 0 = true ∨ oc 1 = true)) ∧
      (b = false →
        (∀ i, q1.mem i = q.mem i) ∧
        q1.head = q.head ∧ q1.tail = q.tail ∧ q1.closed = q.closed) := by
  cases h0 : oc 0 with
  | true =>
    refine ⟨false, q, enqueue_closed_entry (f + 1) q v h0, by simp [h0], ?_⟩
    intro _
    exact ⟨fun i => rfl, rfl, rfl, rfl⟩
  | false =>
    cases h1 : oc 1 with
    | true =>
      obtain ⟨q1, henq, hmem, hh, ht, hc⟩ := enqueue_closed_loop f v hwf h0 h1
      exact ⟨false, q1, henq, by simp [h1], fun _ => ⟨hmem, hh, ht, hc⟩⟩
    | false =>
      obtain ⟨henq, _⟩ := enqueue_success f v hwf h0 h1
      exact ⟨true, afterEnq q v, henq, by simp [h0, h1], by simp⟩

theorem c2_witness :
    ∃ (b : Bool) (q1 : QState Nat),
      enqueueObs (fun _ => true) 1 qEx 7 = some (b, q1) ∧
      (b = false ↔ ((fun _ : Nat => true) 0 = true ∨ (fun _ : Nat => true) 1 = true)) ∧
      (b = false →
        (∀ i, q1.mem i = qEx.mem i) ∧
        q1.head = qEx.head ∧ q1.tail = qEx.tail ∧ q1.closed = qEx.closed) :=
  c2_enqueue_false_iff_closed (fun _ => true) 0 qEx 7 [] qEx_wf

theorem runDequeues_true {α : Type} (d : α) (fuel count : Nat) (q q1 : QState α)
    (v : α) (h : try_dequeue fuel q d = some (true, v, q1)) :
    runDequeues d fuel (count + 1) q =
      (some v :: (runDequeues d fuel count q1).1, (runDequeues d fuel count q1).2) := by
  simp only [runDequeues, h]

/-- Repeated dequeues on a well-formed queue return exactly the held
values in FIFO order, then false once. -/
theorem drain_spec {α : Type} (d : α) (f : Nat) :
    ∀ (items : List (Nat × α)) (q : QState α), WF q items →
      (runDequeues d (f + 1) (items.length + 1) q).1 =
        items.map (fun it => some it.2) ++ [none] := by
  intro items
  induction items with
  | nil =>
    intro q hwf
    simp [runDequeues, try_dequeue, dequeue_empty d f hwf]
  | cons it rest ih =>
    intro q hwf
    obtain ⟨hstep, hwf'⟩ := dequeue_step d f hwf
    have hd : try_dequeue (f + 1) q d = some (true, it.2, afterDeq q it.1) := hstep
    have hlen : (it :: rest).length + 1 = rest.length + 1 + 1 := by simp
    rw [hlen, runDequeues_true d (f + 1) (rest.length + 1) q (afterDeq q it.1) it.2 hd]
    simp [ih _ hwf']

/-- C3: `close()` only sets the sticky flag: the heap, `head_` and
`tail_` (hence every already-linked node) are untouched; after it, the
pending items are drained by successive `try_dequeue` calls in FIFO
order, each returning true, and the next call returns false. -/
theorem c3_close_then_drain {α : Type} (d : α) (f : Nat) (q : QState α)
    (items : List (Nat × α)) (hwf : WF q items) :
    (close q).mem = q.mem ∧ (close q).head = q.head ∧ (close q).tail = q.tail ∧
      (runDequeues d (f + 1) (items.length + 1) (close q)).1 =
        items.map (fun it => some it.2) ++ [none] :=
  ⟨rfl, rfl, rfl,
    drain_spec d f items (close q) ⟨hwf.chain, hwf.tailOk, hwf.nodup, hwf.fresh, hwf.bound⟩⟩

theorem c3_witness :
    (close qEx2).mem = qEx2.mem ∧ (close qEx2).head = qEx2.head ∧
      (close qEx2).tail = qEx2.tail ∧
      (runDequeues 0 1 3 (close qEx2)).1 = [some 10, some 20, none] :=
  c3_close_then_drain 0 0 qEx2 [(1, 10), (2, 20)] qEx2_wf

/-- C9: whenever `try_dequeue` returns false -- on any queue state
whatsoever, well-formed or not -- the caller's `out` argument still holds
its initial value: the only assignment to `out` sits on the success path
after `head->next` was observed non-null. -/
theorem c9_false_leaves_out_unchanged {α : Type} :
    ∀ (f : Nat) (q q1 : QState α) (out out1 : α),
      try_dequeue f q out = some (false, out1, q1) → out1 = out := by
  intro f
  induction f with
  | zero =>
    intro q q1 out out1 h
    simp [try_dequeue, tryDequeueLoop] at h
  | succ f ih =>
    intro q q1 out out1 h
    simp only [try_dequeue, tryDequeueLoop] at h
    split at h
    · simp at h
    · split at h
      · simp at h
        exact h.1.symm
      · split at h
        · exact ih _ _ _ _ h
        · split at h
          · simp at h
          · simp at h

theorem c9_witness :
    try_dequeue 1 qEx (3 : Nat) = some (false, 3, qEx) ∧ (3 : Nat) = 3 :=
  ⟨rfl, c9_false_leaves_out_unchanged 1 qEx qEx 3 3 rfl⟩

/-- C10: an `enqueue(v)` on a closed queue returns false before touching
anything: the returned state is the input state itself, so `head_`,
`tail_`, the closed flag and the results of any sequence of subsequent
`try_dequeue` calls are identical to what they were before the call. -/
theorem c10_closed_enqueue_noop {α : Type} (f : Nat) (q : QState α) (v : α)
    (hcl : q.closed = true) :
    ∃ q1 : QState α,
      enqueue f q v = some (false, q1) ∧
      q1.head = q.head ∧ q1.tail = q.tail ∧ q1.closed = q.closed ∧
      (∀ i, q1.mem i = q.mem i) ∧
      (∀ (k g : Nat) (d : α), (runDequeues d g k q1).1 = (runDequeues d g k q).1) := by
  refine ⟨q, ?_, rfl, rfl, rfl, fun i => rfl, fun k g d => rfl⟩
  simp [enqueue, enqueueObs, hcl]

theorem c10_witness :
    ∃ q1 : QState Nat,
      enqueue 1 qExC 9 = some (false, q1) ∧
      q1.head = qExC.head ∧ q1.tail = qExC.tail ∧ q1.closed = qExC.closed ∧
      (∀ i, q1.mem i = qExC.mem i) ∧
      (∀ (k g : Nat) (d : Nat), (runDequeues d g k q1).1 = (runDequeues d g k qExC).1) :=
  c10_closed_enqueue_noop 1 qExC 9 rfl

/-- Shared-memory access events of one enqueue call, in program order:
loads of `tail_`, hazard publications via `protect_at`, dereferences of a
previously loaded tail pointer (the `t->next` load), `is_closed()` loads,
and the two kinds of CAS. -/
inductive EqEv where
  | obsClosed (b : Bool)
  | readTail (t : Nat)
  | protect (slot : Nat) (p : Option Nat)
  | derefNext (t : Nat)
  | casNext (t : Nat) (n : Nat)
  | casTailAdv (t : Nat) (n : Nat)

/-- The loop of the primary `enqueue` (lines 610-667) instrumented with
its event trace.  Events per iteration, in source order: load
`curr_tail`; `protect_at(0, curr_tail)`; the revalidating reload of
`tail_`; the dereference `curr_tail->next`; the `is_closed()` load (on
true: clear the protection, free the node, return false); the second
`tail_` recheck; then either the two CASes of the success path followed
by clearing the protection, or the helping CAS and a retry. -/
def enqueueTraceLoop {α : Type} (nid : Nat) :
    Nat → QState α → Option (Bool × QState α × List EqEv)
  | 0, _ => none
  | fuel + 1, q =>
    let t := q.tail
    match q.mem t with
    | none => none
    | some nd =>
      let pre : List EqEv :=
        [.readTail t, .protect 0 (some t), .readTail t, .derefNext t, .obsClosed q.closed]
      if q.closed then
        some (false, { q with mem := memErase q.mem nid }, pre ++ [.protect 0 none])
      else
        match nd.next with
        | none =>
          some (true, { q with mem := memSetNext q.mem t (some nid), tail := nid },
            pre ++ [.readTail t, .casNext t nid, .casTailAdv t nid, .protect 0 none])
        | some nx =>
          match enqueueTraceLoop nid fuel { q with tail := nx } with
          | none => none
          | some r => some (r.1, r.2.1, pre ++ [.readTail t, .casTailAdv t nx] ++ r.2.2)

/-- The primary `enqueue` (lines 603-668) with its event trace, in
interference-free semantics (each `is_closed()` load returns the queue's
own flag). -/
def enqueueTrace {α : Type} (fuel : Nat) (q : QState α) (v : α) :
    Option (Bool × QState α × List EqEv) :=
  if q.closed then some (false, q, [.obsClosed true])
  else
    match enqueueTraceLoop q.nextId fuel
        { q with mem := memInsert q.mem q.nextId ⟨none, v⟩, nextId := q.nextId + 1 } with
    | none => none
    | some r => some (r.1, r.2.1, .obsClosed false :: r.2.2)

/-- The loop of the earlier enqueue revision (lines 977-1013): it loads
`curr_tail` and immediately dereferences it to read `curr_tail->next`,
with no `protect_at` call anywhere in the function. -/
def enqueueTraceLoopU {α : Type} (nid : Nat) :
    Nat → QState α → Option (Bool × QState α × List EqEv)
  | 0, _ => none
  | fuel + 1, q =>
    let t := q.tail
    match q.mem t with
    | none => none
    | some nd =>
      let pre : List EqEv := [.readTail t, .derefNext t, .obsClosed q.closed]
      if q.closed then
        some (false, { q with mem := memErase q.mem nid }, pre)
      else
        match nd.next with
        | none =>
          some (true, { q with mem := memSetNext q.mem t (some nid), tail := nid },
            pre ++ [.readTail t, .casNext t nid, .casTailAdv t nid])
        | some nx =>
          match enqueueTraceLoopU nid fuel { q with tail := nx } with
          | none => none
          | some r => some (r.1, r.2.1, pre ++ [.readTail t, .casTailAdv t nx] ++ r.2.2)

/-- The earlier enqueue revision (lines 970-1014) with its event trace. -/
def enqueueTraceU {α : Type} (fuel : Nat) (q : QState α) (v : α) :
    Option (Bool × QState α × List EqEv) :=
  if q.closed then some (false, q, [.obsClosed true])
  else
    match enqueueTraceLoopU q.nextId fuel
        { q with mem := memInsert q.mem q.nextId ⟨none, v⟩, nextId := q.nextId + 1 } with
    | none => none
    | some r => some (r.1, r.2.1, .obsClosed false :: r.2.2)

/-- Trace checker for the hazard discipline on `tail_`: walking the
trace, `prot` is the pointer currently published in hazard slot 0 and
`val` records whether `tail_` has been reloaded and seen equal to `prot`
since the publication.  Every `derefNext t` must find `t` published and
revalidated; publishing resets the revalidation flag. -/
def derefsProtected : Option Nat → Bool → List EqEv → Bool
  | _, _, [] => true
  | _, _, (EqEv.protect 0 p) :: rest => derefsProtected p false rest
  | prot, val, (EqEv.readTail t) :: rest =>
    derefsProtected prot (val || decide (prot = some t)) rest
  | prot, val, (EqEv.derefNext t) :: rest =>
    decide (prot = some t) && val && derefsProtected prot val rest
  | prot, val, _ :: rest => derefsProtected prot val rest

theorem enqueueTraceLoop_protected {α : Type} {nid : Nat} :
    ∀ (fuel : Nat) (q : QState α) (r : Bool × QState α × List EqEv),
      enqueueTraceLoop nid fuel q = some r →
      ∀ (prot : Option Nat) (val : Bool), derefsProtected prot val r.2.2 = true := by
  intro fuel
  induction fuel with
  | zero => intro q r h; simp [enqueueTraceLoop] at h
  | succ fuel ih =>
    intro q r h prot val
    simp only [enqueueTraceLoop] at h
    split at h
    · simp at h
    · split at h
      · cases h
        simp [derefsProtected]
      · split at h
        · cases h
          simp [derefsProtected]
        · split at h
          · simp at h
          · cases h
            simp only [derefsProtected, List.cons_append, List.nil_append,
              decide_eq_true_eq]
            simp [ih _ _ (by assumption)]

/-- C6 (amended): in every completed execution of the primary `enqueue`
(lines 603-668), each dereference of a loaded tail pointer happens while
that pointer is published in hazard slot 0 and after `tail_` has been
revalidated against it; the earlier revision at lines 970-1014 violates
this (see its counterexample). -/
theorem c6_enqueue_protects_tail {α : Type} (fuel : Nat) (q : QState α) (v : α)
    (r : Bool × QState α × List EqEv) (h : enqueueTrace fuel q v = some r) :
    derefsProtected none false r.2.2 = true := by
  simp only [enqueueTrace] at h
  split at h
  · cases h
    simp [derefsProtected]
  · split at h
    · simp at h
    · cases h
      simp only [derefsProtected]
      exact enqueueTraceLoop_protected fuel _ _ (by assumption) none false

theorem c6_witness :
    ∃ r : Bool × QState Nat × List EqEv,
      enqueueTrace 1 qEx 42 = some r ∧ derefsProtected none false r.2.2 = true := by
  obtain ⟨r, h⟩ : ∃ r, enqueueTrace 1 qEx (42 : Nat) = some r := ⟨_, rfl⟩
  exact ⟨r, h, c6_enqueue_protects_tail 1 qEx 42 r h⟩

/-- C6 counterexample: the enqueue revision at lines 970-1014 completes a
successful run (on a fresh queue) whose trace dereferences the loaded
tail pointer without any hazard publication, so the claim does not hold
of every enqueue in the repository. -/
theorem c6_counterexample :
    (enqueueTraceU 1 qEx (42 : Nat)).map (fun r => r.1) = some true ∧
    (enqueueTraceU 1 qEx (42 : Nat)).map (fun r => derefsProtected none false r.2.2) =
      some false := by
  constructor
  · rfl
  · rfl

/-- The `MAX_YIELD` constant of `SimpleBackoff` (line 422). -/
def MAX_YIELD : Nat := 64

/-- `SimpleBackoff::pause` (lines 417-440) in a build with
`LFQ_USE_BACKOFF` defined: from the current counter `n`, returns the
number of `cpu_relax()` iterations performed, whether the thread yielded,
and the new counter value (`n *= 2`, or the reset to 1 after a yield). -/
def pause (n : Nat) : Nat × Bool × Nat :=
  if n ≤ MAX_YIELD then (n, false, n * 2) else (0, true, 1)

/-- The counter value held before the k-th `pause()` call on a fresh
`SimpleBackoff` (member initialiser `n = 1`). -/
def backoffIter : Nat → Nat
  | 0 => 1
  | k + 1 => (pause (backoffIter k)).2.2

/-- Modelled from the spec: the counter update described by the claim,
parameterised by its `MAX` (which the claim recommends to be 256-2048):
double while `n ≤ MAX`, reset to 1 after a yield otherwise. -/
def pauseSpecNext (M n : Nat) : Nat :=
  if n ≤ M then 2 * n else 1

/-- C7 counterexample: the counter value 128 is reached after seven
calls; there the code yields and resets the counter to 1, whereas the
claimed behaviour with any `MAX` in the recommended 256-2048 band spins
and doubles the counter to 256. -/
theorem c7_counterexample :
    backoffIter 7 = 128 ∧ pause 128 = (0, true, 1) ∧
      pauseSpecNext 256 128 = 256 ∧ pauseSpecNext 2048 128 = 256 ∧ (1 : Nat) ≠ 256 := by
  refine ⟨?_, ?_, ?_, ?_, ?_⟩ <;> decide

/-- C7 (amended): `pause()` (active only when the build defines
`LFQ_USE_BACKOFF`) keeps a counter starting at 1; while `n ≤ MAX_YIELD`
(which the code sets to 64, not the claimed 256-2048) it spins for
exactly `n` relaxation cycles -- no random jitter is added -- and
doubles `n`; once `n` exceeds 64 it yields the thread and resets `n` to
1.  Hence the counter cycles through the powers 2^0 .. 2^7. -/
theorem c7_backoff_behaviour (k : Nat) :
    backoffIter k = 2 ^ (k % 8) ∧
    (∀ n, n ≤ MAX_YIELD → pause n = (n, false, 2 * n)) ∧
    (∀ n, MAX_YIELD < n → pause n = (0, true, 1)) := by
  refine ⟨?_, ?_, ?_⟩
  · induction k with
    | zero => rfl
    | succ k ih =>
      rw [show backoffIter (k + 1) = (pause (backoffIter k)).2.2 from rfl, ih]
      by_cases h7 : k % 8 = 7
      · rw [h7, show (k + 1) % 8 = 0 by omega]
        decide
      · have hlt : k % 8 < 8 := Nat.mod_lt _ (by norm_num)
        have hle : k % 8 ≤ 6 := by omega
        have hpow : 2 ^ (k % 8) ≤ MAX_YIELD := by
          calc 2 ^ (k % 8) ≤ 2 ^ 6 := Nat.pow_le_pow_right (by norm_num) hle
          _ = MAX_YIELD := by rfl
        rw [show (k + 1) % 8 = k % 8 + 1 by omega]
        simp [pause, hpow, pow_succ]
  · intro n h
    simp [pause, h, Nat.mul_comm]
  · intro n h
    have : ¬ (n ≤ MAX_YIELD) := by omega
    simp [pause, this]

theorem c7_witness :
    backoffIter 3 = 2 ^ (3 % 8) ∧ pause 5 = (5, false, 2 * 5) ∧ pause 100 = (0, true, 1) :=
  ⟨(c7_backoff_behaviour 3).1, (c7_backoff_behaviour 0).2.1 5 (by decide),
    (c7_backoff_behaviour 0).2.2 100 (by decide)⟩

/-- The `NodePool` state (lines 443-555): the thread-local vector
(`local_pool.vec`; list head = vector back), the global vector guarded by
`global_pool_mutex`, the next fresh address the OS would return, and the
nodes freed straight to the OS on the dead-pool path. -/
structure PoolState where
  localVec : List Nat
  globalVec : List Nat
  osNext : Nat
  osFreed : List Nat

/-- The transfer loop (lines 503-511 and 536-543): pop the back of the
source vector and push it onto the back of the destination, at most `k`
times, stopping early when the source runs empty.  Returns the new
(source, destination) pair. -/
def moveLoop : Nat → List Nat → List Nat → List Nat × List Nat
  | 0, src, dst => (src, dst)
  | _ + 1, [], dst => ([], dst)
  | k + 1, p :: src, dst => moveLoop k src (p :: dst)

/-- `NodePool::allocate` (lines 487-525): pop the local vector; if it is
empty, move up to 32 nodes from the global vector under the mutex; if the
local vector is still empty, request raw memory from the OS with the
global `operator new` (the ASan unpoison macro does not change the pool
state). -/
def allocate (s : PoolState) : Nat × PoolState :=
  match s.localVec with
  | p :: rest => (p, { s with localVec := rest })
  | [] =>
    let r := moveLoop 32 s.globalVec []
    match r.2 with
    | p :: rest => (p, { s with localVec := rest, globalVec := r.1 })
    | [] => (s.osNext, { s with globalVec := r.1, osNext := s.osNext + 1 })

/-- `NodePool::deallocate` (lines 527-554): when the thread-local pool is
alive (`local_pool_ptr` non-null), first move 32 nodes from local to
global under the mutex if the local vector holds more than 64 nodes, then
push the node onto the local vector; when the pool is already torn down,
hand the node straight back to the OS. -/
def deallocate (alive : Bool) (p : Nat) (s : PoolState) : PoolState :=
  if alive then
    let r :=
      if s.localVec.length > 64 then moveLoop 32 s.localVec s.globalVec
      else (s.localVec, s.globalVec)
    { s with localVec := p :: r.1, globalVec := r.2 }
  else
    { s with osFreed := p :: s.osFreed }

/-- Modelled from the spec: the allocate described by the claim, with its
batch size as a parameter (the claim puts `BATCH` at about 128). -/
def allocateClaim (batch : Nat) (s : PoolState) : Nat × PoolState :=
  match s.localVec with
  | p :: rest => (p, { s with localVec := rest })
  | [] =>
    let r := moveLoop batch s.globalVec []
    match r.2 with
    | p :: rest => (p, { s with localVec := rest, globalVec := r.1 })
    | [] => (s.osNext, { s with globalVec := r.1, osNext := s.osNext + 1 })

/-- Modelled from the spec: the deallocate described by the claim: push
onto the local cache first, and move `batch` nodes to the global pool
only once the cache exceeds the high-water mark `hwm` (about CAP - BATCH
with CAP 512-65536, so at least 384). -/
def deallocateClaim (hwm batch : Nat) (p : Nat) (s : PoolState) : PoolState :=
  let l1 := p :: s.localVec
  if l1.length > hwm then
    let r := moveLoop batch l1 s.globalVec
    { s with localVec := r.1, globalVec := r.2 }
  else
    { s with localVec := l1 }

/-- A pool whose local cache holds 65 nodes. -/
def pool65 : PoolState := ⟨List.replicate 65 1, [], 0, []⟩

/-- A pool with an empty local cache and 100 nodes in the global pool. -/
def poolG : PoolState := ⟨[], List.replicate 100 7, 0, []⟩

/-- C8 counterexample: the code's constants are 32 (batch) and 64
(high-water mark), not the claimed 128 and 384-65408.  Deallocating into
a 65-deep local cache moves 32 nodes to the global pool, where the
claimed behaviour (high-water mark at least 384) moves none; an allocate
refilling from a 100-deep global pool takes 32 nodes, where the claimed
batch of 128 would take all 100. -/
theorem c8_counterexample :
    (deallocate true 9 pool65).globalVec.length = 32 ∧
    (deallocateClaim 384 128 9 pool65).globalVec.length = 0 ∧
    (allocate poolG).2.globalVec.length = 68 ∧
    (allocateClaim 128 poolG).2.globalVec.length = 0 ∧
    (32 : Nat) ≠ 0 ∧ (68 : Nat) ≠ 0 := by
  refine ⟨?_, ?_, ?_, ?_, ?_, ?_⟩ <;> decide

theorem moveLoop_spec :
    ∀ (k : Nat) (src dst : List Nat),
      moveLoop k src dst = (src.drop k, (src.take k).reverse ++ dst) := by
  intro k
  induction k with
  | zero => intro src dst; simp [moveLoop]
  | succ k ih =>
    intro src dst
    cases src with
    | nil => simp [moveLoop]
    | cons p rest => simp [moveLoop, ih rest (p :: dst)]

/-- C8 (amended): `allocate` pops the local vector; on an empty local
vector it moves up to 32 nodes (the code's batch, not the claimed 128)
from the global vector under the mutex and pops the refilled local
vector; only if the global vector was empty too does it request raw
memory from the OS.  `deallocate` on a live pool first moves 32 nodes
from local to global under the mutex when the local vector holds more
than 64 nodes (the code's high-water mark, not the claimed 384-65408),
then pushes the node locally; on a dead pool it frees straight to the
OS. -/
theorem c8_pool_behaviour (s : PoolState) (p : Nat) (l : List Nat) :
    (s.localVec = p :: l → allocate s = (p, { s with localVec := l })) ∧
    (s.localVec = [] → s.globalVec ≠ [] →
      allocate s = (((s.globalVec.take 32).reverse).headI,
        { s with localVec := ((s.globalVec.take 32).reverse).tail,
                 globalVec := s.globalVec.drop 32 })) ∧
    (s.localVec = [] → s.globalVec = [] →
      allocate s = (s.osNext, { s with globalVec := [], osNext := s.osNext + 1 })) ∧
    (s.localVec.length ≤ 64 →
      deallocate true p s = { s with localVec := p :: s.localVec }) ∧
    (64 < s.localVec.length →
      deallocate true p s =
        { s with localVec := p :: s.localVec.drop 32,
                 globalVec := (s.localVec.take 32).reverse ++ s.globalVec }) ∧
    (deallocate false p s = { s with osFreed := p :: s.osFreed }) := by
  refine ⟨?_, ?_, ?_, ?_, ?_, ?_⟩
  · intro h
    simp [allocate, h]
  · intro h hg
    have hne : (s.globalVec.take 32).reverse ≠ [] := by
      obtain ⟨x, xs, hx⟩ := List.exists_cons_of_ne_nil hg
      simp [hx]
    obtain ⟨y, ys, hy⟩ := List.exists_cons_of_ne_nil hne
    simp [allocate, h, moveLoop_spec, hy]
  · intro h hg
    simp [allocate, h, hg, moveLoop_spec]
  · intro h
    have : ¬ (s.localVec.length > 64) := by omega
    simp [deallocate, this]
  · intro h
    have : s.localVec.length > 64 := h
    simp [deallocate, this, moveLoop_spec]
  · simp [deallocate]

theorem c8_witness :
    allocate ⟨[4, 5], [6], 0, []⟩ = (4, ⟨[5], [6], 0, []⟩) ∧
    allocate ⟨[], [6, 7], 0, []⟩ = (7, ⟨[6], [], 0, []⟩) ∧
    allocate ⟨[], [], 5, []⟩ = (5, ⟨[], [], 6, []⟩) ∧
    deallocate true 9 ⟨[1], [2], 0, []⟩ = ⟨[9, 1], [2], 0, []⟩ ∧
    deallocate true 9 pool65 =
      ⟨9 :: List.replicate 33 1, List.replicate 32 1, 0, []⟩ ∧
    deallocate false 9 ⟨[1], [2], 0, []⟩ = ⟨[1], [2], 0, [9]⟩ := by
  refine ⟨?_, ?_, ?_, ?_, ?_, ?_⟩
  · exact (c8_pool_behaviour ⟨[4, 5], [6], 0, []⟩ 4 [5]).1 rfl
  · exact (c8_pool_behaviour ⟨[], [6, 7], 0, []⟩ 0 []).2.1 rfl (by decide)
  · exact (c8_pool_behaviour ⟨[], [], 5, []⟩ 0 []).2.2.1 rfl rfl
  · exact (c8_pool_behaviour ⟨[1], [2], 0, []⟩ 9 []).2.2.2.1 (by decide)
  · exact (c8_pool_behaviour pool65 9 []).2.2.2.2.1 (by decide)
  · exact (c8_pool_behaviour ⟨[1], [2], 0, []⟩ 9 []).2.2.2.2.2

/-- A per-thread EBR record, restricted to the fields `scan_and_retire`
reads (`ThreadContext`, lines 37-46). -/
structure EbrThread where
  local_epoch : Nat
  in_critical : Bool

/-- The global EBR state `scan_and_retire` touches: the monotone
`global_epoch_` and the registered thread list. -/
structure EbrState where
  global_epoch : Nat
  threads : List EbrThread

/-- The registry walk of `scan_and_retire` (lines 149-165): every thread
whose `in_critical` flag reads true must have `local_epoch` equal to the
snapshot; the loop breaks at the first mismatch. -/
def canAdvance (snapshot : Nat) : List EbrThread → Bool
  | [] => true
  | t :: rest =>
    if t.in_critical then
      if t.local_epoch = snapshot then canAdvance snapshot rest else false
    else canAdvance snapshot rest

/-- `EpochBasedReclaimationManager::scan_and_retire` (lines 141-174).
`lockAcquired` is the outcome of the non-blocking `try_to_lock` attempt
on the coordination mutex; when it fails the function returns at once.
Otherwise it snapshots `global_epoch_`, walks the registry, and stores
`snapshot + 1` into `global_epoch_` exactly when every in-critical
thread has caught up (actual deletion happens later, in
`attempt_local_cleanup`). -/
def scan_and_retire (lockAcquired : Bool) (s : EbrState) : EbrState :=
  if lockAcquired then
    let snapshot := s.global_epoch
    if canAdvance snapshot s.threads then { s with global_epoch := snapshot + 1 }
    else s
  else s

theorem canAdvance_iff (snapshot : Nat) :
    ∀ ts : List EbrThread, canAdvance snapshot ts = true ↔
      ∀ t ∈ ts, t.in_critical = true → t.local_epoch = snapshot := by
  intro ts
  induction ts with
  | nil => simp [canAdvance]
  | cons t rest ih =>
    cases hc : t.in_critical with
    | true =>
      by_cases he : t.local_epoch = snapshot
      · simp [canAdvance, hc, he, ih]
      · simp [canAdvance, hc, he]
    | false => simp [canAdvance, hc, ih]

/-- C4: when `scan_and_retire` wins the try-lock it snapshots the global
epoch `e` and advances it to `e + 1` exactly when every registered thread
with `in_critical` true has `local_epoch = e`; in every other case (lock
busy, or some in-critical thread behind) the epoch is unchanged.  So the
epoch never decreases and a successful scan advances it by exactly one;
the registry itself is never modified by the scan. -/
theorem c4_ebr_scan_advance (lk : Bool) (s : EbrState) :
    ((scan_and_retire lk s).global_epoch = s.global_epoch ∨
      (lk = true ∧ (scan_and_retire lk s).global_epoch = s.global_epoch + 1)) ∧
    s.global_epoch ≤ (scan_and_retire lk s).global_epoch ∧
    (lk = true →
      ((scan_and_retire lk s).global_epoch = s.global_epoch + 1 ↔
        ∀ t ∈ s.threads, t.in_critical = true → t.local_epoch = s.global_epoch)) ∧
    (scan_and_retire lk s).threads = s.threads := by
  cases lk with
  | false => simp [scan_and_retire]
  | true =>
    cases hca : canAdvance s.global_epoch s.threads with
    | true =>
      have hall := (canAdvance_iff s.global_epoch s.threads).mp hca
      have heq : (scan_and_retire true s).global_epoch = s.global_epoch + 1 := by
        simp [scan_and_retire, hca]
      refine ⟨Or.inr ⟨rfl, heq⟩, by rw [heq]; omega,
        fun _ => ⟨fun _ => hall, fun _ => heq⟩, ?_⟩
      simp [scan_and_retire, hca]
    | false =>
      have hnot : ¬ (∀ t ∈ s.threads, t.in_critical = true → t.local_epoch = s.global_epoch) := by
        intro hall
        rw [(canAdvance_iff s.global_epoch s.threads).mpr hall] at hca
        cases hca
      have heq : (scan_and_retire true s).global_epoch = s.global_epoch := by
        simp [scan_and_retire, hca]
      refine ⟨Or.inl heq, by rw [heq], fun _ => ⟨?_, ?_⟩, ?_⟩
      · intro habs
        rw [heq] at habs
        omega
      · intro hall
        exact absurd hall hnot
      · simp [scan_and_retire, hca]

/-- An EBR state with one caught-up in-critical thread and one inactive
thread that is behind. -/
def ebrEx : EbrState := ⟨5, [⟨5, true⟩, ⟨3, false⟩]⟩

theorem c4_witness :
    (scan_and_retire true ebrEx).global_epoch = ebrEx.global_epoch + 1 :=
  ((c4_ebr_scan_advance true ebrEx).2.2.1 rfl).mpr (by decide)

/-- A hazard-pointer record on the global list (`HPRecType`,
lines 266-279): the slot array (null = `none`) and the `is_acquired`
flag. -/
structure HPRec where
  hp : List (Option Nat)
  is_acquired : Bool

/-- Phase 1 of `scan_and_retire` (lines 394-416): walk the global record
list and push every non-null pointer of every acquired record. -/
def collectHazards : List HPRec → List Nat
  | [] => []
  | r :: rest => (if r.is_acquired then r.hp.filterMap id else []) ++ collectHazards rest

/-- A type-erased retired node (`RetiredNode`, lines 296-300): the
pointer and an identifier standing for its stored deleter. -/
structure RetiredNode where
  ptr : Nat
  deleterTag : Nat

/-- Phase 3 of `scan_and_retire` (lines 421-444): walk the retire list in
order, keep (compacted to the front of the buffer) every node whose
pointer occurs in the sorted hazard snapshot -- `std::binary_search` on
the sorted vector decides exactly membership -- and free every other node
by invoking its stored deleter.  Returns the kept buffer (after the final
`resize`) and the freed nodes, both in their original order. -/
def scanFilter (hz : List Nat) : List RetiredNode → List RetiredNode × List RetiredNode
  | [] => ([], [])
  | r :: rest =>
    let k := scanFilter hz rest
    if r.ptr ∈ hz then (r :: k.1, k.2) else (k.1, r :: k.2)

/-- `HazardPointerManager::scan_and_retire` (lines 390-445): snapshot the
hazards, sort the snapshot (phase 2, `std::sort`; insertion sort produces
the same sorted vector), filter the thread-local retire buffer against
it.  Result: (kept buffer, freed nodes). -/
def scan_and_retire_hp (recs : List HPRec) (retireList : List RetiredNode) :
    List RetiredNode × List RetiredNode :=
  scanFilter ((collectHazards recs).insertionSort (fun a b => a ≤ b)) retireList

/-- C5: the scan frees a retired node (invoking its deleter) exactly when
its pointer is absent from the hazard snapshot collected over all
acquired records, keeps exactly the retirees whose pointer appears in
that snapshot, and the compacted buffer is precisely the kept entries in
their original order. -/
theorem c5_hp_scan_frees_iff (recs : List HPRec) (buf : List RetiredNode) :
    scan_and_retire_hp recs buf =
      (buf.filter (fun r => decide (r.ptr ∈ collectHazards recs)),
       buf.filter (fun r => decide (r.ptr ∉ collectHazards recs))) := by
  have hmem : ∀ p : Nat,
      p ∈ (collectHazards recs).insertionSort (fun a b => a ≤ b) ↔
        p ∈ collectHazards recs :=
    fun p => (List.perm_insertionSort (fun a b => a ≤ b) (collectHazards recs)).mem_iff
  unfold scan_and_retire_hp
  induction buf with
  | nil => simp [scanFilter]
  | cons r rest ih =>
    by_cases h : r.ptr ∈ collectHazards recs
    · simp [scanFilter, (hmem r.ptr).mpr h, h, List.filter_cons, ih]
    · have : r.ptr ∉ (collectHazards recs).insertionSort (fun a b => a ≤ b) := by
        intro hx; exact h ((hmem r.ptr).mp hx)
      simp [scanFilter, this, h, List.filter_cons, ih]

end LFQ
